import Mathlib

/-!
Verification of the side-view battler position resolver in
`Neirn_SvActorReposition.js`.

The plugin's algorithmic core is `calculateBattlePositions`, which resolves
absolute battle-screen coordinates (`realX`, `realY`) for an ordered list of
position records `{parentIndex, x, y}` by recursively following parent links,
with a per-pass `visited` array guarding against revisits and cycles.

The embedding below mirrors the source:

* JavaScript numbers that can become `NaN` are modelled by `JSNum`
  (`num v` or `nan`), and a not-yet-assigned `realX`/`realY` field
  (JavaScript `undefined`) is modelled by `none : Option JSNum`.
  The source expression `curr.x + parent.realX` is `jsAddField`:
  adding a number to `undefined` or to `NaN` yields `NaN`.
* `recursiveCalcPos` is recursive with the `visited` guard as the only
  termination protection; we embed it as `recursiveCalcPosF` with a fuel
  argument and invoke it with fuel `countFalse visited + 1`, which is
  always sufficient because each recursive call happens right after a
  fresh index was marked visited (`count_false_set_true` below).
* `cntX`/`cntY` are ghost write counters, not present in the source; they
  instrument the two assignment sites (`curr.realX = ...`, `curr.realY = ...`)
  so that "written exactly once per pass" is statable.  They influence
  nothing else.
-/

/-- A JavaScript number as it occurs in this plugin: an integer or `NaN`. -/
inductive JSNum where
  | num (v : Int) : JSNum
  | nan : JSNum
  deriving DecidableEq, Repr

/-- The source expression `a + field` where `field` is `record.realX` or
`record.realY`: a JavaScript number plus a possibly-`undefined`,
possibly-`NaN` field.  `number + undefined` and `number + NaN` are `NaN`. -/
def jsAddField (a : Int) : Option JSNum → JSNum
  | some (JSNum.num v) => JSNum.num (a + v)
  | some JSNum.nan => JSNum.nan
  | none => JSNum.nan

/-- One entry of the plugin's `positions` array.  `parentIndex`, `x`, `y`
come from the configuration; `realX`, `realY` start out absent (JavaScript
`undefined`) and are written by the resolution pass.  `cntX`, `cntY` are
ghost write counters (see module comment). -/
structure PositionRecord where
  parentIndex : Int
  x : Int
  y : Int
  realX : Option JSNum := none
  realY : Option JSNum := none
  cntX : Nat := 0
  cntY : Nat := 0
  deriving DecidableEq, Repr

/-- The configuration-determined part of a record (parent link and offsets);
the resolution pass never changes these fields. -/
structure StaticRec where
  parentIndex : Int
  x : Int
  y : Int
  deriving DecidableEq, Repr

/-- Forget the derived fields of a record. -/
def strip (r : PositionRecord) : StaticRec :=
  ⟨r.parentIndex, r.x, r.y⟩

/-- Forget the derived fields of a whole record list. -/
def stripL (l : List PositionRecord) : List StaticRec :=
  l.map strip

/-- The mutable state of one resolution pass: the `positions` array and the
per-pass `visited` array. -/
structure ResolveState where
  positions : List PositionRecord
  visited : List Bool
  deriving DecidableEq, Repr

/-- Number of not-yet-visited indices; the termination measure of the
recursion in the source. -/
def countFalse (l : List Bool) : Nat :=
  l.count false

/-- The two assignment statements `curr.realX = rx; curr.realY = ry` of the
source, acting on the record stored at `index` (JavaScript object mutation
becomes an in-place list update).  The ghost counters record the writes. -/
def setReal (ps : List PositionRecord) (index : Nat) (rx ry : JSNum) :
    List PositionRecord :=
  match ps[index]? with
  | some c => ps.set index
      { c with realX := some rx, realY := some ry,
               cntX := c.cntX + 1, cntY := c.cntY + 1 }
  | none => ps

/-- The statement `visited[index] = true`. -/
def markVisited (st : ResolveState) (index : Nat) : ResolveState :=
  ⟨st.positions, st.visited.set index true⟩

/-- The tail of `recursiveCalcPos` after the recursive call returned:
`const parent = positions[parentIndex]; curr.realX = curr.x + parent.realX;
curr.realY = curr.y + parent.realY;`.  Both lookups are in range whenever
this is reached from the source's control flow; the fallthrough case is
unreachable and returns the state unchanged. -/
def applyParent (st2 : ResolveState) (index pIdx : Nat) : ResolveState :=
  match st2.positions[index]?, st2.positions[pIdx]? with
  | some c2, some par =>
      ⟨setReal st2.positions index (jsAddField c2.x par.realX)
        (jsAddField c2.y par.realY), st2.visited⟩
  | _, _ => st2

/-- The body of `recursiveCalcPos(index)` from the source, parameterised by
the recursive occurrence:

```
if (visited[index]) return;
visited[index] = true;
const curr = positions[index];
const parentIndex = curr.parentIndex;
if (parentIndex < 0 || parentIndex >= positions.length) {
  curr.realX = curr.x; curr.realY = curr.y;
} else {
  recursiveCalcPos(parentIndex);
  const parent = positions[parentIndex];
  curr.realX = curr.x + parent.realX;
  curr.realY = curr.y + parent.realY;
}
```

An out-of-range `index` (so `positions[index]` is `undefined`, on which the
source would throw; this is unreachable from `calculateBattlePositions`) is
totalised to returning the marked state. -/
def rcpBody (recurse : ResolveState → Nat → ResolveState)
    (st : ResolveState) (index : Nat) : ResolveState :=
  if st.visited.getD index false then st
  else
    match st.positions[index]? with
    | none => markVisited st index
    | some curr =>
      if curr.parentIndex < 0 ∨ (st.positions.length : Int) ≤ curr.parentIndex then
        ⟨setReal st.positions index (JSNum.num curr.x) (JSNum.num curr.y),
         (markVisited st index).visited⟩
      else
        applyParent
          (recurse (markVisited st index) curr.parentIndex.toNat)
          index curr.parentIndex.toNat

/-- Fuelled form of `recursiveCalcPos`.  The fuel is a bookkeeping device of
the embedding only: every call made by `calculateBattlePositions` supplies
fuel strictly greater than the number of unvisited indices, and each
recursive call happens right after marking a previously unvisited index, so
the fuel never runs out (the `0` case is unreachable in those calls). -/
def recursiveCalcPosF : Nat → ResolveState → Nat → ResolveState
  | 0, st, _ => st
  | fuel + 1, st, index => rcpBody (recursiveCalcPosF fuel) st index

/-- `recursiveCalcPos(index)` with always-sufficient fuel. -/
def recursiveCalcPos (st : ResolveState) (index : Nat) : ResolveState :=
  recursiveCalcPosF (countFalse st.visited + 1) st index

/-- `calculateBattlePositions()`: allocate a fresh all-`false` `visited`
array and run `recursiveCalcPos` over every index in ascending order. -/
def calculateBattlePositions (ps : List PositionRecord) : List PositionRecord :=
  ((List.range ps.length).foldl recursiveCalcPos
    ⟨ps, List.replicate ps.length false⟩).positions

/-- The decision made by the overwritten `Sprite_Actor.prototype.setActorHome`:
`some (rx, ry)` means `this.setHome(position.realX, position.realY)` is called
with those (possibly `undefined`) field values, `none` means the original
`setActorHome` is invoked (fallback).  The source tests `if (position)`,
i.e. whether `positions[index]` is an object, which holds exactly for
in-range indices. -/
def setActorHomeChoice (ps : List PositionRecord) (index : Nat) :
    Option (Option JSNum × Option JSNum) :=
  match ps[index]? with
  | some r => some (r.realX, r.realY)
  | none => none

/-! ### Specification-side functions

These re-express the record list's parent graph: `parentOf` is the valid
parent (the source's range test), `absXY` is the absolute position obtained
by summing offsets down a terminating parent chain (fuelled), `depthF` the
length of that chain, and `iterParent` iterated parent steps. -/

/-- The valid parent of index `i`, if any: `parentIndex` passed through the
source's range test `parentIndex < 0 || parentIndex >= positions.length`. -/
def parentOf (s : List StaticRec) (i : Nat) : Option Nat :=
  match s[i]? with
  | none => none
  | some r =>
    if r.parentIndex < 0 ∨ (s.length : Int) ≤ r.parentIndex then none
    else some r.parentIndex.toNat

/-- Absolute position of index `i` obtained by following valid parents to a
parentless root, summing offsets; `none` when the chain does not terminate
within `fuel` steps (in particular for every cyclic chain, at every fuel). -/
def absXY (s : List StaticRec) : Nat → Nat → Option (Int × Int)
  | 0, _ => none
  | fuel + 1, i =>
    match s[i]? with
    | none => none
    | some r =>
      match parentOf s i with
      | none => some (r.x, r.y)
      | some p => (absXY s fuel p).map (fun v => (r.x + v.1, r.y + v.2))

/-- Length of the valid-parent chain from `i` to its root, fuelled like
`absXY`. -/
def depthF (s : List StaticRec) : Nat → Nat → Option Nat
  | 0, _ => none
  | fuel + 1, i =>
    match s[i]? with
    | none => none
    | some _ =>
      match parentOf s i with
      | none => some 0
      | some p => (depthF s fuel p).map (· + 1)

/-- `n`-fold iteration of `parentOf`. -/
def iterParent (s : List StaticRec) : Nat → Nat → Option Nat
  | 0, i => some i
  | n + 1, i =>
    match parentOf s i with
    | none => none
    | some p => iterParent s n p

/-- The value that a full resolution pass stores into `realX` at index `j`:
the chain sum for records with a terminating parent chain, `NaN` for records
whose chain is cyclic.  Fuel `s.length` is always sufficient
(`absXY_bnd` below). -/
def outVX (s : List StaticRec) (j : Nat) : JSNum :=
  match absXY s s.length j with
  | some v => JSNum.num v.1
  | none => JSNum.nan

/-- `realY` analogue of `outVX`. -/
def outVY (s : List StaticRec) (j : Nat) : JSNum :=
  match absXY s s.length j with
  | some v => JSNum.num v.2
  | none => JSNum.nan

/-- Invariant on one record: each derived field is absent or already holds
its final value. -/
def okRec (s : List StaticRec) (j : Nat) (r : PositionRecord) : Prop :=
  (r.realX = none ∨ r.realX = some (outVX s j)) ∧
  (r.realY = none ∨ r.realY = some (outVY s j))

/-- Index `j`'s record holds its final resolved values. -/
def assignedF (s : List StaticRec) (st : ResolveState) (j : Nat) : Prop :=
  ∃ r, st.positions[j]? = some r ∧
    r.realX = some (outVX s j) ∧ r.realY = some (outVY s j)

/-- `b` is reachable from `a` by parent steps. -/
def Reach (s : List StaticRec) (a b : Nat) : Prop :=
  ∃ n, iterParent s n a = some b

/-! ### List utilities -/

theorem set_same {α : Type} (l : List α) (i : Nat) (a : α) (h : l[i]? = some a) :
    l.set i a = l := by
  apply List.ext_getElem?
  intro j
  rw [List.getElem?_set]
  by_cases hij : i = j
  · subst hij
    rcases List.getElem?_eq_some.mp h with ⟨hlt, _⟩
    simp [hlt, h.symm]
  · simp [hij]

theorem count_false_set_true (l : List Bool) (i : Nat) (hi : i < l.length)
    (hf : l.getD i false = false) :
    countFalse (l.set i true) < countFalse l := by
  have hget : l[i] = false := by
    rw [List.getD_eq_getElem?_getD, List.getElem?_eq_getElem hi] at hf
    simpa using hf
  have hpos : 0 < List.count false l := by
    have hsome : l[i]? = some false := by
      rw [List.getElem?_eq_getElem hi, hget]
    exact List.count_pos_iff.mpr (List.getElem?_mem hsome)
  unfold countFalse
  rw [List.count_set true false l i hi]
  simp [hget]
  exact List.count_pos_iff.mp hpos

theorem getD_set_self (l : List Bool) (i : Nat) (hi : i < l.length) :
    (l.set i true).getD i false = true := by
  rw [List.getD_eq_getElem?_getD, List.getElem?_set_self hi]
  rfl

theorem getD_set_mono (l : List Bool) (i j : Nat) (h : l.getD j false = true) :
    (l.set i true).getD j false = true := by
  by_cases hij : i = j
  · subst hij
    by_cases hi : i < l.length
    · exact getD_set_self l i hi
    · rw [List.set_eq_of_length_le (Nat.le_of_not_lt hi)]
      exact h
  · rw [List.getD_eq_getElem?_getD, List.getElem?_set_ne hij,
        ← List.getD_eq_getElem?_getD]
    exact h

theorem getD_replicate_false (n j : Nat) :
    (List.replicate n false).getD j false = false := by
  rw [List.getD_eq_getElem?_getD, List.getElem?_replicate]
  by_cases h : j < n <;> simp [h]

/-! ### Basic lemmas about the update helpers -/

theorem setReal_length (ps : List PositionRecord) (i : Nat) (rx ry : JSNum) :
    (setReal ps i rx ry).length = ps.length := by
  unfold setReal
  rcases h : ps[i]? with _ | c <;> simp

theorem setReal_stripL (ps : List PositionRecord) (i : Nat) (rx ry : JSNum) :
    stripL (setReal ps i rx ry) = stripL ps := by
  unfold setReal
  rcases h : ps[i]? with _ | c
  · rfl
  · unfold stripL
    rw [List.map_set]
    apply set_same
    rw [List.getElem?_map, h]
    rfl

theorem setReal_getElem_ne (ps : List PositionRecord) (i : Nat) (rx ry : JSNum)
    (j : Nat) (h : i ≠ j) : (setReal ps i rx ry)[j]? = ps[j]? := by
  unfold setReal
  rcases hc : ps[i]? with _ | c
  · rfl
  · exact List.getElem?_set_ne h

theorem setReal_getElem_self (ps : List PositionRecord) (i : Nat) (rx ry : JSNum)
    (c : PositionRecord) (h : ps[i]? = some c) :
    (setReal ps i rx ry)[i]? = some
      { c with realX := some rx, realY := some ry,
               cntX := c.cntX + 1, cntY := c.cntY + 1 } := by
  unfold setReal
  rw [h]
  exact List.getElem?_set_self (List.getElem?_eq_some.mp h).1

/-! ### Structural lemmas about the fuelled recursion -/

theorem rcpF_succ (fuel : Nat) (st : ResolveState) (index : Nat) :
    recursiveCalcPosF (fuel + 1) st index = rcpBody (recursiveCalcPosF fuel) st index :=
  rfl

theorem rcpF_positions_length : ∀ (fuel : Nat) (st : ResolveState) (index : Nat),
    (recursiveCalcPosF fuel st index).positions.length = st.positions.length := by
  intro fuel
  induction fuel with
  | zero => intro st index; rfl
  | succ fuel ih =>
    intro st index
    rw [rcpF_succ]
    unfold rcpBody
    cases hg : st.visited.getD index false
    · simp only [hg, if_false, Bool.false_eq_true]
      rcases hcur : st.positions[index]? with _ | curr <;> simp only [hcur]
      · rfl
      · by_cases hpar : curr.parentIndex < 0 ∨ (st.positions.length : Int) ≤ curr.parentIndex
        · simp only [if_pos hpar]
          exact setReal_length _ _ _ _
        · simp only [if_neg hpar]
          unfold applyParent
          rcases h2 : (recursiveCalcPosF fuel (markVisited st index)
              curr.parentIndex.toNat).positions[index]? with _ | c2 <;>
            rcases h3 : (recursiveCalcPosF fuel (markVisited st index)
              curr.parentIndex.toNat).positions[curr.parentIndex.toNat]? with _ | par <;>
            simp only [h2, h3]
          · exact ih _ _
          · exact ih _ _
          · exact ih _ _
          · show (setReal _ _ _ _).length = _
            rw [setReal_length]
            exact ih _ _
    · simp [hg]

theorem applyParent_visited (st2 : ResolveState) (index pIdx : Nat) :
    (applyParent st2 index pIdx).visited = st2.visited := by
  unfold applyParent
  rcases h2 : st2.positions[index]? with _ | c2 <;>
    rcases h3 : st2.positions[pIdx]? with _ | par <;> simp

theorem applyParent_cases (st2 : ResolveState) (index pIdx : Nat) :
    (∃ c2 par, st2.positions[index]? = some c2 ∧ st2.positions[pIdx]? = some par ∧
      applyParent st2 index pIdx =
        ⟨setReal st2.positions index (jsAddField c2.x par.realX)
          (jsAddField c2.y par.realY), st2.visited⟩) ∨
    ((st2.positions[index]? = none ∨ st2.positions[pIdx]? = none) ∧
      applyParent st2 index pIdx = st2) := by
  unfold applyParent
  rcases h2 : st2.positions[index]? with _ | c2 <;>
    rcases h3 : st2.positions[pIdx]? with _ | par
  · exact Or.inr ⟨Or.inl rfl, rfl⟩
  · exact Or.inr ⟨Or.inl rfl, rfl⟩
  · exact Or.inr ⟨Or.inr rfl, rfl⟩
  · exact Or.inl ⟨c2, par, rfl, rfl, rfl⟩

theorem rcpF_succ_cases (fuel : Nat) (st : ResolveState) (index : Nat) :
    (st.visited.getD index false = true ∧
      recursiveCalcPosF (fuel + 1) st index = st) ∨
    (st.visited.getD index false = false ∧ st.positions[index]? = none ∧
      recursiveCalcPosF (fuel + 1) st index = markVisited st index) ∨
    (∃ curr, st.visited.getD index false = false ∧
      st.positions[index]? = some curr ∧
      (curr.parentIndex < 0 ∨ (st.positions.length : Int) ≤ curr.parentIndex) ∧
      recursiveCalcPosF (fuel + 1) st index =
        ⟨setReal st.positions index (JSNum.num curr.x) (JSNum.num curr.y),
         st.visited.set index true⟩) ∨
    (∃ curr, st.visited.getD index false = false ∧
      st.positions[index]? = some curr ∧
      ¬(curr.parentIndex < 0 ∨ (st.positions.length : Int) ≤ curr.parentIndex) ∧
      recursiveCalcPosF (fuel + 1) st index =
        applyParent
          (recursiveCalcPosF fuel (markVisited st index) curr.parentIndex.toNat)
          index curr.parentIndex.toNat) := by
  rw [rcpF_succ]
  unfold rcpBody
  cases hg : st.visited.getD index false
  · rcases hcur : st.positions[index]? with _ | curr
    · exact Or.inr (Or.inl ⟨rfl, rfl, by simp⟩)
    · by_cases hpar : curr.parentIndex < 0 ∨ (st.positions.length : Int) ≤ curr.parentIndex
      · refine Or.inr (Or.inr (Or.inl ⟨curr, rfl, rfl, hpar, ?_⟩))
        simp [hpar, markVisited]
      · refine Or.inr (Or.inr (Or.inr ⟨curr, rfl, rfl, hpar, ?_⟩))
        simp [hpar]
  · exact Or.inl ⟨rfl, by simp⟩

theorem rcpF_visited_length : ∀ (fuel : Nat) (st : ResolveState) (index : Nat),
    (recursiveCalcPosF fuel st index).visited.length = st.visited.length := by
  intro fuel
  induction fuel with
  | zero => intro st index; rfl
  | succ fuel ih =>
    intro st index
    rcases rcpF_succ_cases fuel st index with ⟨_, heq⟩ | ⟨_, _, heq⟩ |
      ⟨curr, _, _, _, heq⟩ | ⟨curr, _, _, _, heq⟩ <;> rw [heq]
    · simp [markVisited]
    · simp
    · rw [applyParent_visited, ih]
      simp [markVisited]

theorem rcpF_stripL : ∀ (fuel : Nat) (st : ResolveState) (index : Nat),
    stripL (recursiveCalcPosF fuel st index).positions = stripL st.positions := by
  intro fuel
  induction fuel with
  | zero => intro st index; rfl
  | succ fuel ih =>
    intro st index
    rcases rcpF_succ_cases fuel st index with ⟨_, heq⟩ | ⟨_, _, heq⟩ |
      ⟨curr, _, _, _, heq⟩ | ⟨curr, _, _, _, heq⟩ <;> rw [heq]
    · rfl
    · exact setReal_stripL _ _ _ _
    · rcases applyParent_cases
          (recursiveCalcPosF fuel (markVisited st index) curr.parentIndex.toNat)
          index curr.parentIndex.toNat with ⟨c2, par, _, _, heq2⟩ | ⟨_, heq2⟩ <;>
        rw [heq2]
      · show stripL (setReal _ _ _ _) = _
        rw [setReal_stripL]
        exact ih _ _
      · exact ih _ _

theorem rcpF_visited_mono : ∀ (fuel : Nat) (st : ResolveState) (index j : Nat),
    st.visited.getD j false = true →
    (recursiveCalcPosF fuel st index).visited.getD j false = true := by
  intro fuel
  induction fuel with
  | zero => intro st index j h; exact h
  | succ fuel ih =>
    intro st index j h
    rcases rcpF_succ_cases fuel st index with ⟨_, heq⟩ | ⟨_, _, heq⟩ |
      ⟨curr, _, _, _, heq⟩ | ⟨curr, _, _, _, heq⟩ <;> rw [heq]
    · exact h
    · exact getD_set_mono _ _ _ h
    · exact getD_set_mono _ _ _ h
    · rw [applyParent_visited]
      exact ih _ _ _ (getD_set_mono _ _ _ h)

theorem rcpF_frame : ∀ (fuel : Nat) (st : ResolveState) (index j : Nat),
    st.visited.getD j false = true →
    (recursiveCalcPosF fuel st index).positions[j]? = st.positions[j]? := by
  intro fuel
  induction fuel with
  | zero => intro st index j h; rfl
  | succ fuel ih =>
    intro st index j h
    have hne : ∀ h0 : st.visited.getD index false = false, index ≠ j := by
      intro h0 hc
      rw [hc, h] at h0
      cases h0
    rcases rcpF_succ_cases fuel st index with ⟨_, heq⟩ | ⟨_, _, heq⟩ |
      ⟨curr, hg, _, _, heq⟩ | ⟨curr, hg, _, _, heq⟩
    · rw [heq]
    · rw [heq]; rfl
    · rw [heq]
      exact setReal_getElem_ne _ _ _ _ _ (hne hg)
    · rw [heq]
      have hmark : (markVisited st index).visited.getD j false = true :=
        getD_set_mono _ _ _ h
      have hih := ih (markVisited st index) curr.parentIndex.toNat j hmark
      rcases applyParent_cases
          (recursiveCalcPosF fuel (markVisited st index) curr.parentIndex.toNat)
          index curr.parentIndex.toNat with ⟨c2, par, _, _, heq2⟩ | ⟨_, heq2⟩ <;>
        rw [heq2]
      · show (setReal _ _ _ _)[j]? = _
        rw [setReal_getElem_ne _ _ _ _ _ (hne hg)]
        exact hih
      · exact hih

theorem rcpF_visits : ∀ (fuel : Nat) (st : ResolveState) (index : Nat),
    0 < fuel → index < st.visited.length →
    (recursiveCalcPosF fuel st index).visited.getD index false = true := by
  intro fuel
  induction fuel with
  | zero => intro st index h; omega
  | succ fuel _ =>
    intro st index _ hlt
    rcases rcpF_succ_cases fuel st index with ⟨hg, heq⟩ | ⟨_, _, heq⟩ |
      ⟨curr, _, _, _, heq⟩ | ⟨curr, _, _, _, heq⟩ <;> rw [heq]
    · exact hg
    · exact getD_set_self _ _ hlt
    · exact getD_set_self _ _ hlt
    · rw [applyParent_visited]
      exact rcpF_visited_mono _ _ _ _ (getD_set_self _ _ hlt)

/-! ### Lemmas about the parent-chain functions -/

theorem absXY_succ_none (s : List StaticRec) (fuel i : Nat) (h : s[i]? = none) :
    absXY s (fuel + 1) i = none := by
  unfold absXY
  rw [h]

theorem absXY_succ_root (s : List StaticRec) (fuel i : Nat) (r : StaticRec)
    (h : s[i]? = some r) (hp : parentOf s i = none) :
    absXY s (fuel + 1) i = some (r.x, r.y) := by
  unfold absXY
  rw [h, hp]

theorem absXY_succ_parent (s : List StaticRec) (fuel i : Nat) (r : StaticRec)
    (p : Nat) (h : s[i]? = some r) (hp : parentOf s i = some p) :
    absXY s (fuel + 1) i = (absXY s fuel p).map (fun v => (r.x + v.1, r.y + v.2)) := by
  simp only [absXY, h, hp]

theorem depthF_succ_root (s : List StaticRec) (fuel i : Nat) (r : StaticRec)
    (h : s[i]? = some r) (hp : parentOf s i = none) :
    depthF s (fuel + 1) i = some 0 := by
  unfold depthF
  rw [h, hp]

theorem depthF_succ_parent (s : List StaticRec) (fuel i : Nat) (r : StaticRec)
    (p : Nat) (h : s[i]? = some r) (hp : parentOf s i = some p) :
    depthF s (fuel + 1) i = (depthF s fuel p).map (· + 1) := by
  simp only [depthF, h, hp]

theorem parentOf_spec (s : List StaticRec) (i p : Nat) (h : parentOf s i = some p) :
    ∃ r, s[i]? = some r ∧
      ¬(r.parentIndex < 0 ∨ (s.length : Int) ≤ r.parentIndex) ∧
      p = r.parentIndex.toNat := by
  unfold parentOf at h
  rcases hr : s[i]? with _ | r
  · simp [hr] at h
  · simp only [hr] at h
    by_cases hc : r.parentIndex < 0 ∨ (s.length : Int) ≤ r.parentIndex
    · simp [hc] at h
    · simp only [if_neg hc] at h
      exact ⟨r, rfl, hc, (Option.some.inj h).symm⟩

theorem parentOf_lt (s : List StaticRec) (i p : Nat) (h : parentOf s i = some p) :
    p < s.length := by
  rcases parentOf_spec s i p h with ⟨r, _, hc, hp⟩
  subst hp
  omega

theorem absXY_lt (s : List StaticRec) (fuel i : Nat) (v : Int × Int)
    (h : absXY s fuel i = some v) : i < s.length := by
  cases fuel with
  | zero => cases h
  | succ fuel =>
    rcases hr : s[i]? with _ | r
    · rw [absXY_succ_none s fuel i hr] at h; cases h
    · exact (List.getElem?_eq_some.mp hr).1

theorem depthF_lt (s : List StaticRec) (fuel i : Nat) (d : Nat)
    (h : depthF s fuel i = some d) : i < s.length := by
  cases fuel with
  | zero => cases h
  | succ fuel =>
    unfold depthF at h
    rcases hr : s[i]? with _ | r
    · rw [hr] at h; cases h
    · exact (List.getElem?_eq_some.mp hr).1

theorem absXY_mono (s : List StaticRec) :
    ∀ (fuel fuel' i : Nat) (v : Int × Int), fuel ≤ fuel' →
      absXY s fuel i = some v → absXY s fuel' i = some v := by
  intro fuel
  induction fuel with
  | zero => intro fuel' i v _ h; cases h
  | succ fuel ih =>
    intro fuel' i v hle h
    rcases Nat.exists_eq_add_of_le hle with ⟨k, hk⟩
    subst hk
    rcases hr : s[i]? with _ | r
    · rw [absXY_succ_none s fuel i hr] at h; cases h
    · rcases hp : parentOf s i with _ | p
      · rw [absXY_succ_root s fuel i r hr hp] at h
        rw [show fuel + 1 + k = (fuel + k) + 1 by omega,
          absXY_succ_root s (fuel + k) i r hr hp]
        exact h
      · rw [absXY_succ_parent s fuel i r p hr hp] at h
        rcases hsub : absXY s fuel p with _ | w
        · rw [hsub] at h; cases h
        · rw [hsub] at h
          rw [show fuel + 1 + k = (fuel + k) + 1 by omega,
            absXY_succ_parent s (fuel + k) i r p hr hp,
            ih (fuel + k) p w (by omega) hsub]
          exact h

theorem depthF_mono (s : List StaticRec) :
    ∀ (fuel fuel' i : Nat) (d : Nat), fuel ≤ fuel' →
      depthF s fuel i = some d → depthF s fuel' i = some d := by
  intro fuel
  induction fuel with
  | zero => intro fuel' i d _ h; cases h
  | succ fuel ih =>
    intro fuel' i d hle h
    rcases Nat.exists_eq_add_of_le hle with ⟨k, hk⟩
    subst hk
    rcases hr : s[i]? with _ | r
    · unfold depthF at h; rw [hr] at h; cases h
    · rcases hp : parentOf s i with _ | p
      · rw [depthF_succ_root s fuel i r hr hp] at h
        rw [show fuel + 1 + k = (fuel + k) + 1 by omega,
          depthF_succ_root s (fuel + k) i r hr hp]
        exact h
      · rw [depthF_succ_parent s fuel i r p hr hp] at h
        rcases hsub : depthF s fuel p with _ | d1
        · rw [hsub] at h; cases h
        · rw [hsub] at h
          rw [show fuel + 1 + k = (fuel + k) + 1 by omega,
            depthF_succ_parent s (fuel + k) i r p hr hp,
            ih (fuel + k) p d1 (by omega) hsub]
          exact h

theorem absXY_isSome_depthF (s : List StaticRec) :
    ∀ (fuel i : Nat), (absXY s fuel i).isSome = (depthF s fuel i).isSome := by
  intro fuel
  induction fuel with
  | zero => intro i; rfl
  | succ fuel ih =>
    intro i
    rcases hr : s[i]? with _ | r
    · rw [absXY_succ_none s fuel i hr]
      simp only [depthF, hr]
      rfl
    · rcases hp : parentOf s i with _ | p
      · rw [absXY_succ_root s fuel i r hr hp, depthF_succ_root s fuel i r hr hp]
        rfl
      · rw [absXY_succ_parent s fuel i r p hr hp,
          depthF_succ_parent s fuel i r p hr hp]
        rcases h1 : absXY s fuel p with _ | w <;> rcases h2 : depthF s fuel p with _ | d
        · simp
        · have hi := ih p
          rw [h1, h2] at hi
          cases hi
        · have hi := ih p
          rw [h1, h2] at hi
          cases hi
        · simp

theorem iterParent_succ_parent (s : List StaticRec) (n i p : Nat)
    (hp : parentOf s i = some p) :
    iterParent s (n + 1) i = iterParent s n p := by
  simp only [iterParent, hp]

theorem iterParent_succ_none (s : List StaticRec) (n i : Nat)
    (hp : parentOf s i = none) :
    iterParent s (n + 1) i = none := by
  simp only [iterParent, hp]

theorem iterParent_snoc (s : List StaticRec) :
    ∀ (n a b c : Nat), iterParent s n a = some b → parentOf s b = some c →
      iterParent s (n + 1) a = some c := by
  intro n
  induction n with
  | zero =>
    intro a b c h hc
    cases Option.some.inj h
    rw [iterParent_succ_parent s 0 a c hc]
    rfl
  | succ n ih =>
    intro a b c h hc
    rcases hq : parentOf s a with _ | q
    · rw [iterParent_succ_none s n a hq] at h; cases h
    · rw [iterParent_succ_parent s n a q hq] at h
      rw [iterParent_succ_parent s (n + 1) a q hq]
      exact ih q b c h hc

theorem depthF_prec (s : List StaticRec) :
    ∀ (fuel i d : Nat), depthF s fuel i = some d → depthF s (d + 1) i = some d := by
  intro fuel
  induction fuel with
  | zero => intro i d h; cases h
  | succ fuel ih =>
    intro i d h
    rcases hr : s[i]? with _ | r
    · unfold depthF at h; rw [hr] at h; cases h
    · rcases hp : parentOf s i with _ | p
      · rw [depthF_succ_root s fuel i r hr hp] at h
        cases Option.some.inj h
        exact depthF_succ_root s 0 i r hr hp
      · rw [depthF_succ_parent s fuel i r p hr hp] at h
        rcases hsub : depthF s fuel p with _ | d1
        · rw [hsub] at h; cases h
        · rw [hsub] at h
          cases Option.some.inj h
          have hihp := ih p d1 hsub
          rw [depthF_succ_parent s (d1 + 1) i r p hr hp, hihp]
          rfl

theorem depthF_chain (s : List StaticRec) :
    ∀ (k i d fuel : Nat), depthF s fuel i = some d → k ≤ d →
      ∃ j, iterParent s k i = some j ∧ depthF s fuel j = some (d - k) := by
  intro k
  induction k with
  | zero =>
    intro i d fuel h _
    exact ⟨i, rfl, by simpa using h⟩
  | succ k ih =>
    intro i d fuel h hk
    cases fuel with
    | zero => cases h
    | succ fuel =>
      rcases hr : s[i]? with _ | r
      · unfold depthF at h; rw [hr] at h; cases h
      · rcases hp : parentOf s i with _ | p
        · rw [depthF_succ_root s fuel i r hr hp] at h
          cases Option.some.inj h
          omega
        · rw [depthF_succ_parent s fuel i r p hr hp] at h
          rcases hsub : depthF s fuel p with _ | d1
          · rw [hsub] at h; cases h
          · rw [hsub] at h
            have hd : d1 + 1 = d := by simpa using Option.some.inj h
            subst hd
            have hmono : depthF s (fuel + 1) p = some d1 :=
              depthF_mono s fuel (fuel + 1) p d1 (Nat.le_succ fuel) hsub
            rcases ih p d1 (fuel + 1) hmono (by omega) with ⟨j, hiter, hdep⟩
            refine ⟨j, ?_, ?_⟩
            · rw [iterParent_succ_parent s k i p hp]
              exact hiter
            · have heq : d1 + 1 - (k + 1) = d1 - k := by omega
              rw [heq]
              exact hdep

theorem depthF_lt_length (s : List StaticRec) (fuel i d : Nat)
    (h : depthF s fuel i = some d) : d < s.length := by
  have key : ∀ k : Fin (d + 1), ∃ j, iterParent s k.val i = some j ∧
      depthF s fuel j = some (d - k.val) := by
    intro k
    exact depthF_chain s k.val i d fuel h (by omega)
  choose jf hjf hdf using key
  have hglt : ∀ k : Fin (d + 1), jf k < s.length := by
    intro k
    exact depthF_lt s fuel (jf k) (d - k.val) (hdf k)
  have hinj : Function.Injective (fun k : Fin (d + 1) => (⟨jf k, hglt k⟩ : Fin s.length)) := by
    intro a b hab
    have hjeq : jf a = jf b := congrArg Fin.val hab
    have h1 := hdf a
    have h2 := hdf b
    rw [hjeq] at h1
    rw [h1] at h2
    have := Option.some.inj h2
    have ha := a.isLt
    have hb := b.isLt
    apply Fin.ext
    omega
  have hcard := Fintype.card_le_of_injective _ hinj
  simpa using hcard

theorem absXY_prec (s : List StaticRec) :
    ∀ (fuel i d : Nat) (v : Int × Int), absXY s fuel i = some v →
      depthF s fuel i = some d → absXY s (d + 1) i = some v := by
  intro fuel
  induction fuel with
  | zero => intro i d v h; cases h
  | succ fuel ih =>
    intro i d v h hd
    rcases hr : s[i]? with _ | r
    · rw [absXY_succ_none s fuel i hr] at h; cases h
    · rcases hp : parentOf s i with _ | p
      · rw [absXY_succ_root s fuel i r hr hp] at h
        rw [depthF_succ_root s fuel i r hr hp] at hd
        cases Option.some.inj hd
        rw [absXY_succ_root s 0 i r hr hp]
        exact h
      · rw [absXY_succ_parent s fuel i r p hr hp] at h
        rw [depthF_succ_parent s fuel i r p hr hp] at hd
        rcases hsub : absXY s fuel p with _ | w
        · rw [hsub] at h; cases h
        · rcases hsubd : depthF s fuel p with _ | d1
          · rw [hsubd] at hd; cases hd
          · rw [hsub] at h
            rw [hsubd] at hd
            cases Option.some.inj hd
            have hihp := ih p d1 w hsub hsubd
            rw [absXY_succ_parent s (d1 + 1) i r p hr hp, hihp]
            exact h

theorem absXY_bnd (s : List StaticRec) (fuel i : Nat) (v : Int × Int)
    (h : absXY s fuel i = some v) : absXY s s.length i = some v := by
  have hiso := absXY_isSome_depthF s fuel i
  rw [h] at hiso
  rcases Option.isSome_iff_exists.mp hiso.symm with ⟨d, hd⟩
  have hlt := depthF_lt_length s fuel i d hd
  have hprec := absXY_prec s fuel i d v h hd
  exact absXY_mono s (d + 1) s.length i v (by omega) hprec

theorem absXY_undef (s : List StaticRec) (i : Nat)
    (h : absXY s s.length i = none) : ∀ fuel, absXY s fuel i = none := by
  intro fuel
  cases h2 : absXY s fuel i with
  | none => rfl
  | some v =>
    rw [absXY_bnd s fuel i v h2] at h
    cases h

theorem iter_absXY (s : List StaticRec) :
    ∀ (n a b fuel : Nat) (v : Int × Int), iterParent s n a = some b →
      absXY s fuel a = some v → ∃ w, absXY s (fuel - n) b = some w := by
  intro n
  induction n with
  | zero =>
    intro a b fuel v hiter habs
    cases Option.some.inj hiter
    exact ⟨v, by simpa using habs⟩
  | succ n ih =>
    intro a b fuel v hiter habs
    rcases hq : parentOf s a with _ | q
    · rw [iterParent_succ_none s n a hq] at hiter; cases hiter
    · rw [iterParent_succ_parent s n a q hq] at hiter
      cases fuel with
      | zero => cases habs
      | succ fuel =>
        rcases parentOf_spec s a q hq with ⟨r, hr, _, _⟩
        rw [absXY_succ_parent s fuel a r q hr hq] at habs
        rcases hsub : absXY s fuel q with _ | w
        · rw [hsub] at habs; cases habs
        · rcases ih q b fuel w hiter hsub with ⟨w2, hw2⟩
          exact ⟨w2, by simpa using hw2⟩

theorem cyc_undef (s : List StaticRec) (i p n : Nat)
    (hp : parentOf s i = some p) (hiter : iterParent s n p = some i) :
    ∀ (fuel : Nat) (v : Int × Int), absXY s fuel i ≠ some v := by
  intro fuel
  induction fuel using Nat.strong_induction_on with
  | _ fuel ih =>
    intro v h
    cases fuel with
    | zero => cases h
    | succ fuel =>
      rcases parentOf_spec s i p hp with ⟨r, hr, _, _⟩
      rw [absXY_succ_parent s fuel i r p hr hp] at h
      rcases hsub : absXY s fuel p with _ | w
      · rw [hsub] at h; cases h
      · rcases iter_absXY s n p i fuel w hiter hsub with ⟨w2, hw2⟩
        exact ih (fuel - n) (by omega) w2 hw2

theorem outV_num (s : List StaticRec) (j : Nat) (v : Int × Int)
    (h : absXY s s.length j = some v) :
    outVX s j = JSNum.num v.1 ∧ outVY s j = JSNum.num v.2 := by
  unfold outVX outVY
  rw [h]
  exact ⟨rfl, rfl⟩

theorem outV_nan (s : List StaticRec) (j : Nat)
    (h : absXY s s.length j = none) :
    outVX s j = JSNum.nan ∧ outVY s j = JSNum.nan := by
  unfold outVX outVY
  rw [h]
  exact ⟨rfl, rfl⟩

theorem parent_undef (s : List StaticRec) (j p : Nat) (sr : StaticRec)
    (hp : parentOf s j = some p) (hr : s[j]? = some sr)
    (hund : absXY s s.length p = none) : absXY s s.length j = none := by
  cases h2 : absXY s s.length j with
  | none => rfl
  | some v =>
    cases hL : s.length with
    | zero =>
      have := (List.getElem?_eq_some.mp hr).1
      omega
    | succ L =>
      rw [hL] at h2
      rw [absXY_succ_parent s L j sr p hr hp] at h2
      rcases hsub : absXY s L p with _ | w
      · rw [hsub] at h2; cases h2
      · rw [absXY_bnd s L p w hsub] at hund
        cases hund

theorem outV_parent (s : List StaticRec) (j p : Nat) (sr : StaticRec)
    (hp : parentOf s j = some p) (hr : s[j]? = some sr) :
    outVX s j = jsAddField sr.x (some (outVX s p)) ∧
    outVY s j = jsAddField sr.y (some (outVY s p)) := by
  cases habs : absXY s s.length p with
  | some w =>
    have h1 : absXY s (s.length + 1) j = some (sr.x + w.1, sr.y + w.2) := by
      rw [absXY_succ_parent s s.length j sr p hr hp, habs]
      rfl
    have h2 := absXY_bnd s (s.length + 1) j (sr.x + w.1, sr.y + w.2) h1
    rcases outV_num s j (sr.x + w.1, sr.y + w.2) h2 with ⟨hx, hy⟩
    rcases outV_num s p w habs with ⟨px, py⟩
    rw [hx, hy, px, py]
    exact ⟨rfl, rfl⟩
  | none =>
    have hj := parent_undef s j p sr hp hr habs
    rcases outV_nan s j hj with ⟨hx, hy⟩
    rcases outV_nan s p habs with ⟨px, py⟩
    rw [hx, hy, px, py]
    exact ⟨rfl, rfl⟩

theorem getD_set_rev (l : List Bool) (i j : Nat)
    (h : (l.set i true).getD j false = true) (hne : i ≠ j) :
    l.getD j false = true := by
  rw [List.getD_eq_getElem?_getD, List.getElem?_set_ne hne,
    ← List.getD_eq_getElem?_getD] at h
  exact h

theorem stripL_length (l : List PositionRecord) : (stripL l).length = l.length :=
  List.length_map l strip

theorem stripL_getElem (l : List PositionRecord) (j : Nat) :
    (stripL l)[j]? = (l[j]?).map strip :=
  List.getElem?_map strip l j

/-- Core invariant of one `recursiveCalcPos` call: provided every record
holds `none` or its final value, every visited record outside the
in-progress ancestor set `EXC` is fully resolved, and every member of `EXC`
reaches `index` by parent steps, the same holds after the call (with the
call target resolved or excluded). -/
theorem out_core (s : List StaticRec) :
    ∀ (fuel : Nat) (st : ResolveState) (index : Nat) (EXC : Nat → Prop),
    stripL st.positions = s →
    st.visited.length = st.positions.length →
    countFalse st.visited < fuel →
    (∀ j r, st.positions[j]? = some r → okRec s j r) →
    (∀ j, st.visited.getD j false = true →
      EXC j ∨ assignedF s st j ∨ st.positions[j]? = none) →
    (∀ p, EXC p → Reach s p index) →
    (∀ j r, (recursiveCalcPosF fuel st index).positions[j]? = some r → okRec s j r) ∧
    (∀ j, (recursiveCalcPosF fuel st index).visited.getD j false = true →
      EXC j ∨ assignedF s (recursiveCalcPosF fuel st index) j ∨
        (recursiveCalcPosF fuel st index).positions[j]? = none) := by
  intro fuel
  induction fuel with
  | zero =>
    intro st index EXC _ _ hfuel _ _ _
    omega
  | succ fuel ih =>
    intro st index EXC hstrip hlen hfuel hR hDone hEXC
    rcases rcpF_succ_cases fuel st index with ⟨_, heq⟩ | ⟨_, _, heq⟩ |
      ⟨curr, hg, hcur, hpar, heq⟩ | ⟨curr, hg, hcur, hpar, heq⟩
    · rw [heq]
      exact ⟨hR, hDone⟩
    · rw [heq]
      refine ⟨hR, ?_⟩
      intro j hj
      by_cases hji : index = j
      · subst hji
        right; right
        assumption
      · rcases hDone j (getD_set_rev st.visited index j hj hji) with h | h | h
        · exact Or.inl h
        · exact Or.inr (Or.inl h)
        · exact Or.inr (Or.inr h)
    · -- invalid parent: the record anchors at its own offsets
      rw [heq]
      have hidx : index < st.positions.length := (List.getElem?_eq_some.mp hcur).1
      have hsr : s[index]? = some (strip curr) := by
        rw [← hstrip, stripL_getElem, hcur]
        rfl
      have hlenS : s.length = st.positions.length := by
        rw [← hstrip, stripL_length]
      have hpOf : parentOf s index = none := by
        unfold parentOf
        simp only [hsr]
        rw [if_pos]
        show (strip curr).parentIndex < 0 ∨ (s.length : Int) ≤ (strip curr).parentIndex
        rw [hlenS]
        exact hpar
      have houtv : absXY s s.length index = some (curr.x, curr.y) := by
        cases hL : s.length with
        | zero => exfalso; omega
        | succ L => exact absXY_succ_root s L index (strip curr) hsr hpOf
      rcases outV_num s index (curr.x, curr.y) houtv with ⟨hox, hoy⟩
      constructor
      · intro j r hr
        by_cases hji : index = j
        · subst hji
          rw [setReal_getElem_self st.positions index _ _ curr hcur] at hr
          cases Option.some.inj hr
          constructor
          · right
            rw [hox]
          · right
            rw [hoy]
        · rw [setReal_getElem_ne st.positions index _ _ j hji] at hr
          exact hR j r hr
      · intro j hj
        by_cases hji : index = j
        · subst hji
          right; left
          refine ⟨_, setReal_getElem_self st.positions index _ _ curr hcur, ?_, ?_⟩
          · rw [hox]
          · rw [hoy]
        · rcases hDone j (getD_set_rev st.visited index j hj hji) with h | h | h
          · exact Or.inl h
          · rcases h with ⟨r, hr, hrx, hry⟩
            exact Or.inr (Or.inl ⟨r, by
              rw [setReal_getElem_ne st.positions index _ _ j hji]; exact hr, hrx, hry⟩)
          · right; right
            rw [setReal_getElem_ne st.positions index _ _ j hji]
            exact h
    · -- valid parent: recurse, then read the parent record
      have hidx : index < st.positions.length := (List.getElem?_eq_some.mp hcur).1
      have hsr : s[index]? = some (strip curr) := by
        rw [← hstrip, stripL_getElem, hcur]
        rfl
      have hlenS : s.length = st.positions.length := by
        rw [← hstrip, stripL_length]
      have hpOf : parentOf s index = some curr.parentIndex.toNat := by
        unfold parentOf
        simp only [hsr]
        rw [if_neg]
        · rfl
        · show ¬((strip curr).parentIndex < 0 ∨ (s.length : Int) ≤ (strip curr).parentIndex)
          rw [hlenS]
          exact hpar
      have hplt : curr.parentIndex.toNat < st.positions.length := by
        rw [← hlenS]
        exact parentOf_lt s index curr.parentIndex.toNat hpOf
      have hidxv : index < st.visited.length := by
        rw [hlen]
        exact hidx
      have hfuel1 : countFalse (st.visited.set index true) < fuel := by
        have hdec := count_false_set_true st.visited index hidxv hg
        omega
      have hmarkvis : (markVisited st index).visited.getD index false = true :=
        getD_set_self st.visited index hidxv
      rcases ih (markVisited st index) curr.parentIndex.toNat
          (fun q => EXC q ∨ q = index) hstrip
          (by show (st.visited.set index true).length = st.positions.length
              rw [List.length_set]; exact hlen)
          hfuel1 hR
          (by intro j hj
              by_cases hji : index = j
              · subst hji
                exact Or.inl (Or.inr rfl)
              · rcases hDone j (getD_set_rev st.visited index j hj hji) with h | h | h
                · exact Or.inl (Or.inl h)
                · exact Or.inr (Or.inl h)
                · exact Or.inr (Or.inr h))
          (by intro q hq
              rcases hq with hq | hq
              · rcases hEXC q hq with ⟨n, hn⟩
                exact ⟨n + 1, iterParent_snoc s n q index curr.parentIndex.toNat hn hpOf⟩
              · subst hq
                refine ⟨1, ?_⟩
                rw [iterParent_succ_parent s 0 q curr.parentIndex.toNat hpOf]
                rfl)
        with ⟨hR2, hDone2⟩
      set st2 := recursiveCalcPosF fuel (markVisited st index) curr.parentIndex.toNat
        with hst2
      have st2_len : st2.positions.length = st.positions.length :=
        rcpF_positions_length fuel (markVisited st index) curr.parentIndex.toNat
      have hvis_idx_st2 : st2.visited.getD index false = true :=
        rcpF_visited_mono fuel (markVisited st index) curr.parentIndex.toNat index hmarkvis
      have hvis_p_st2 : st2.visited.getD curr.parentIndex.toNat false = true := by
        apply rcpF_visits fuel (markVisited st index) curr.parentIndex.toNat (by omega)
        show curr.parentIndex.toNat < (st.visited.set index true).length
        rw [List.length_set, hlen]
        exact hplt
      have hc2 : st2.positions[index]? = some curr := by
        rw [rcpF_frame fuel (markVisited st index) curr.parentIndex.toNat index hmarkvis]
        exact hcur
      have hplt2 : curr.parentIndex.toNat < st2.positions.length := by
        rw [st2_len]
        exact hplt
      obtain ⟨par, hpar2⟩ : ∃ par, st2.positions[curr.parentIndex.toNat]? = some par :=
        ⟨_, List.getElem?_eq_getElem hplt2⟩
      rcases applyParent_cases st2 index curr.parentIndex.toNat with
        ⟨c2, par', h1, h2, heq2⟩ | ⟨hbad, _⟩
      swap
      · rcases hbad with hbad | hbad
        · rw [hc2] at hbad; cases hbad
        · rw [hpar2] at hbad; cases hbad
      cases (Option.some.inj (hc2.symm.trans h1) : curr = c2)
      cases (Option.some.inj (hpar2.symm.trans h2) : par = par')
      -- the value written for `index` is its final value
      have hval : jsAddField curr.x par.realX = outVX s index ∧
          jsAddField curr.y par.realY = outVY s index := by
        rcases outV_parent s index curr.parentIndex.toNat (strip curr) hpOf hsr
          with ⟨hvpx, hvpy⟩
        rcases hDone2 curr.parentIndex.toNat hvis_p_st2 with hexc | hass | hnone
        · -- in-progress parent: a cycle through `index`, both sides are NaN
          have hreach : Reach s curr.parentIndex.toNat index := by
            rcases hexc with hexc | hexc
            · exact hEXC _ hexc
            · exact ⟨0, by rw [hexc]; rfl⟩
          rcases hreach with ⟨n, hitn⟩
          have hundef_index : absXY s s.length index = none := by
            cases habs : absXY s s.length index with
            | none => rfl
            | some v =>
              exact absurd habs (cyc_undef s index curr.parentIndex.toNat n hpOf hitn s.length v)
          have hcycp : iterParent s (n + 1) curr.parentIndex.toNat =
              some curr.parentIndex.toNat :=
            iterParent_snoc s n curr.parentIndex.toNat index curr.parentIndex.toNat hitn hpOf
          have hundef_p : absXY s s.length curr.parentIndex.toNat = none := by
            rcases hq : parentOf s curr.parentIndex.toNat with _ | q
            · rw [iterParent_succ_none s n curr.parentIndex.toNat hq] at hcycp
              cases hcycp
            · rw [iterParent_succ_parent s n curr.parentIndex.toNat q hq] at hcycp
              cases habs : absXY s s.length curr.parentIndex.toNat with
              | none => rfl
              | some v =>
                exact absurd habs
                  (cyc_undef s curr.parentIndex.toNat q n hq hcycp s.length v)
          rcases outV_nan s index hundef_index with ⟨hnx, hny⟩
          rcases outV_nan s curr.parentIndex.toNat hundef_p with ⟨hpx, hpy⟩
          rcases hR2 curr.parentIndex.toNat par hpar2 with ⟨hox, hoy⟩
          constructor
          · rw [hnx]
            rcases hox with hox | hox
            · rw [hox]; rfl
            · rw [hox, hpx]; rfl
          · rw [hny]
            rcases hoy with hoy | hoy
            · rw [hoy]; rfl
            · rw [hoy, hpy]; rfl
        · -- resolved parent: both sides are the chain sums
          rcases hass with ⟨rp, hrp, hrpx, hrpy⟩
          cases (Option.some.inj (hpar2.symm.trans hrp) : par = rp)
          constructor
          · rw [hrpx, hvpx]
            rfl
          · rw [hrpy, hvpy]
            rfl
        · rw [hpar2] at hnone
          cases hnone
      rw [heq, heq2]
      constructor
      · intro j r hr
        by_cases hji : index = j
        · subst hji
          rw [show (⟨setReal st2.positions index (jsAddField curr.x par.realX)
                (jsAddField curr.y par.realY), st2.visited⟩ : ResolveState).positions =
              setReal st2.positions index (jsAddField curr.x par.realX)
                (jsAddField curr.y par.realY) from rfl,
            setReal_getElem_self st2.positions index _ _ curr hc2] at hr
          cases Option.some.inj hr
          constructor
          · right
            rw [hval.1]
          · right
            rw [hval.2]
        · rw [show (⟨setReal st2.positions index (jsAddField curr.x par.realX)
                (jsAddField curr.y par.realY), st2.visited⟩ : ResolveState).positions =
              setReal st2.positions index (jsAddField curr.x par.realX)
                (jsAddField curr.y par.realY) from rfl,
            setReal_getElem_ne st2.positions index _ _ j hji] at hr
          exact hR2 j r hr
      · intro j hj
        by_cases hji : index = j
        · subst hji
          right; left
          refine ⟨_, setReal_getElem_self st2.positions index _ _ curr hc2, ?_, ?_⟩
          · rw [hval.1]
          · rw [hval.2]
        · rcases hDone2 j hj with h | h | h
          · rcases h with h | h
            · exact Or.inl h
            · exact absurd h.symm hji
          · rcases h with ⟨r, hr, hrx, hry⟩
            refine Or.inr (Or.inl ⟨r, ?_, hrx, hry⟩)
            rw [show (⟨setReal st2.positions index (jsAddField curr.x par.realX)
                  (jsAddField curr.y par.realY), st2.visited⟩ : ResolveState).positions =
                setReal st2.positions index (jsAddField curr.x par.realX)
                  (jsAddField curr.y par.realY) from rfl,
              setReal_getElem_ne st2.positions index _ _ j hji]
            exact hr
          · right; right
            rw [show (⟨setReal st2.positions index (jsAddField curr.x par.realX)
                  (jsAddField curr.y par.realY), st2.visited⟩ : ResolveState).positions =
                setReal st2.positions index (jsAddField curr.x par.realX)
                  (jsAddField curr.y par.realY) from rfl,
              setReal_getElem_ne st2.positions index _ _ j hji]
            exact h

/-! ### The full pass: folding over all indices -/

theorem rcp_positions_length (st : ResolveState) (a : Nat) :
    (recursiveCalcPos st a).positions.length = st.positions.length :=
  rcpF_positions_length _ st a

theorem rcp_visited_length (st : ResolveState) (a : Nat) :
    (recursiveCalcPos st a).visited.length = st.visited.length :=
  rcpF_visited_length _ st a

theorem rcp_stripL (st : ResolveState) (a : Nat) :
    stripL (recursiveCalcPos st a).positions = stripL st.positions :=
  rcpF_stripL _ st a

theorem rcp_visited_mono (st : ResolveState) (a j : Nat)
    (h : st.visited.getD j false = true) :
    (recursiveCalcPos st a).visited.getD j false = true :=
  rcpF_visited_mono _ st a j h

theorem rcp_frame (st : ResolveState) (a j : Nat)
    (h : st.visited.getD j false = true) :
    (recursiveCalcPos st a).positions[j]? = st.positions[j]? :=
  rcpF_frame _ st a j h

theorem rcp_visits (st : ResolveState) (a : Nat) (h : a < st.visited.length) :
    (recursiveCalcPos st a).visited.getD a false = true :=
  rcpF_visits _ st a (Nat.succ_pos _) h

theorem fold_positions_length : ∀ (L : List Nat) (st : ResolveState),
    (L.foldl recursiveCalcPos st).positions.length = st.positions.length := by
  intro L
  induction L with
  | nil => intro st; rfl
  | cons a L ih =>
    intro st
    rw [List.foldl_cons, ih]
    exact rcpF_positions_length _ st a

theorem fold_visited_length : ∀ (L : List Nat) (st : ResolveState),
    (L.foldl recursiveCalcPos st).visited.length = st.visited.length := by
  intro L
  induction L with
  | nil => intro st; rfl
  | cons a L ih =>
    intro st
    rw [List.foldl_cons, ih]
    exact rcpF_visited_length _ st a

theorem fold_stripL : ∀ (L : List Nat) (st : ResolveState),
    stripL (L.foldl recursiveCalcPos st).positions = stripL st.positions := by
  intro L
  induction L with
  | nil => intro st; rfl
  | cons a L ih =>
    intro st
    rw [List.foldl_cons, ih]
    exact rcpF_stripL _ st a

theorem fold_visited_mono : ∀ (L : List Nat) (st : ResolveState) (j : Nat),
    st.visited.getD j false = true →
    (L.foldl recursiveCalcPos st).visited.getD j false = true := by
  intro L
  induction L with
  | nil => intro st j h; exact h
  | cons a L ih =>
    intro st j h
    rw [List.foldl_cons]
    exact ih _ j (rcpF_visited_mono _ st a j h)

theorem fold_frame : ∀ (L : List Nat) (st : ResolveState) (j : Nat),
    st.visited.getD j false = true →
    (L.foldl recursiveCalcPos st).positions[j]? = st.positions[j]? := by
  intro L
  induction L with
  | nil => intro st j h; rfl
  | cons a L ih =>
    intro st j h
    rw [List.foldl_cons, ih (recursiveCalcPos st a) j (rcp_visited_mono st a j h)]
    exact rcp_frame st a j h

theorem fold_visits : ∀ (L : List Nat) (st : ResolveState) (i : Nat),
    i ∈ L → i < st.visited.length →
    (L.foldl recursiveCalcPos st).visited.getD i false = true := by
  intro L
  induction L with
  | nil => intro st i him; cases him
  | cons a L ih =>
    intro st i him hlt
    rw [List.foldl_cons]
    rcases List.mem_cons.mp him with rfl | hmem
    · exact fold_visited_mono L _ i (rcp_visits st i hlt)
    · apply ih _ i hmem
      rw [rcp_visited_length]
      exact hlt

theorem out_fold (s : List StaticRec) :
    ∀ (L : List Nat) (st : ResolveState),
    stripL st.positions = s →
    st.visited.length = st.positions.length →
    (∀ j r, st.positions[j]? = some r → okRec s j r) →
    (∀ j, st.visited.getD j false = true →
      assignedF s st j ∨ st.positions[j]? = none) →
    (∀ j r, (L.foldl recursiveCalcPos st).positions[j]? = some r → okRec s j r) ∧
    (∀ j, (L.foldl recursiveCalcPos st).visited.getD j false = true →
      assignedF s (L.foldl recursiveCalcPos st) j ∨
        (L.foldl recursiveCalcPos st).positions[j]? = none) := by
  intro L
  induction L with
  | nil => intro st _ _ hR hDone; exact ⟨hR, hDone⟩
  | cons a L ih =>
    intro st hstrip hlen hR hDone
    rcases out_core s (countFalse st.visited + 1) st a (fun _ => False) hstrip hlen
        (Nat.lt_succ_self _) hR
        (by intro j hj
            rcases hDone j hj with h | h
            · exact Or.inr (Or.inl h)
            · exact Or.inr (Or.inr h))
        (by intro p hp; cases hp)
      with ⟨hR1, hDone1⟩
    rw [List.foldl_cons]
    apply ih
    · rw [rcp_stripL]
      exact hstrip
    · rw [rcp_visited_length, rcp_positions_length]
      exact hlen
    · exact hR1
    · intro j hj
      rcases hDone1 j hj with h | h | h
      · cases h
      · exact Or.inl h
      · exact Or.inr h

/-- Output characterization of a full resolution pass: if every record holds
`none` or already its final value in each derived field, then after the pass
every record holds exactly its final value: the signed chain sum for records
with a terminating parent chain, `NaN` for records on or above a cycle. -/
theorem out_main (ps : List PositionRecord)
    (hOK : ∀ j r, ps[j]? = some r → okRec (stripL ps) j r) :
    ∀ j r, (calculateBattlePositions ps)[j]? = some r →
      r.realX = some (outVX (stripL ps) j) ∧ r.realY = some (outVY (stripL ps) j) := by
  intro j r hr
  have hlen0 : (List.replicate ps.length false).length = ps.length :=
    List.length_replicate ps.length false
  rcases out_fold (stripL ps) (List.range ps.length)
      ⟨ps, List.replicate ps.length false⟩ rfl hlen0 hOK
      (by intro j0 hj0
          rw [getD_replicate_false] at hj0
          cases hj0)
    with ⟨_, hDoneF⟩
  have hjlt : j < ps.length := by
    have h1 := (List.getElem?_eq_some.mp hr).1
    unfold calculateBattlePositions at h1
    rw [fold_positions_length] at h1
    exact h1
  have hvis : ((List.range ps.length).foldl recursiveCalcPos
      ⟨ps, List.replicate ps.length false⟩).visited.getD j false = true := by
    apply fold_visits
    · exact List.mem_range.mpr hjlt
    · rw [hlen0]
      exact hjlt
  rcases hDoneF j hvis with ⟨r2, hr2, hx, hy⟩ | hnone
  · unfold calculateBattlePositions at hr
    rw [hr2] at hr
    cases Option.some.inj hr
    exact ⟨hx, hy⟩
  · unfold calculateBattlePositions at hr
    rw [hnone] at hr
    cases hr

/-! ### Exactly-once writes -/

theorem getD_set_ne (l : List Bool) (i j : Nat) (hne : i ≠ j) :
    (l.set i true).getD j false = l.getD j false := by
  rw [List.getD_eq_getElem?_getD, List.getElem?_set_ne hne,
    ← List.getD_eq_getElem?_getD]

theorem applyParent_getElem_ne (st2 : ResolveState) (index pIdx j : Nat)
    (hne : index ≠ j) :
    (applyParent st2 index pIdx).positions[j]? = st2.positions[j]? := by
  rcases applyParent_cases st2 index pIdx with ⟨c2, par, _, _, heq2⟩ | ⟨_, heq2⟩ <;>
    rw [heq2]
  show (setReal _ _ _ _)[j]? = _
  rw [setReal_getElem_ne st2.positions index _ _ j hne]

theorem cnt_step : ∀ (fuel : Nat) (st : ResolveState) (index j : Nat)
    (r0 : PositionRecord),
    st.visited.length = st.positions.length →
    countFalse st.visited < fuel →
    st.visited.getD j false = false →
    st.positions[j]? = some r0 →
    ((recursiveCalcPosF fuel st index).visited.getD j false = false ∧
      (recursiveCalcPosF fuel st index).positions[j]? = some r0) ∨
    ((recursiveCalcPosF fuel st index).visited.getD j false = true ∧
      ∃ r, (recursiveCalcPosF fuel st index).positions[j]? = some r ∧
        r.cntX = r0.cntX + 1 ∧ r.cntY = r0.cntY + 1) := by
  intro fuel
  induction fuel with
  | zero =>
    intro st index j r0 _ hfuel _ _
    omega
  | succ fuel ih =>
    intro st index j r0 hlen hfuel hvisj hj
    rcases rcpF_succ_cases fuel st index with ⟨_, heq⟩ | ⟨_, hcur, heq⟩ |
      ⟨curr, hg, hcur, hpar, heq⟩ | ⟨curr, hg, hcur, hpar, heq⟩
    · rw [heq]
      exact Or.inl ⟨hvisj, hj⟩
    · rw [heq]
      have hji : index ≠ j := by
        intro hc
        rw [hc, hj] at hcur
        cases hcur
      left
      constructor
      · show (st.visited.set index true).getD j false = false
        rw [getD_set_ne st.visited index j hji]
        exact hvisj
      · exact hj
    · rw [heq]
      by_cases hji : index = j
      · subst hji
        have hcr : curr = r0 := Option.some.inj (hcur.symm.trans hj)
        subst hcr
        right
        have hlt : index < st.visited.length := by
          rw [hlen]
          exact (List.getElem?_eq_some.mp hcur).1
        constructor
        · exact getD_set_self st.visited index hlt
        · exact ⟨_, setReal_getElem_self st.positions index _ _ curr hcur, rfl, rfl⟩
      · left
        constructor
        · show (st.visited.set index true).getD j false = false
          rw [getD_set_ne st.visited index j hji]
          exact hvisj
        · show (setReal _ _ _ _)[j]? = some r0
          rw [setReal_getElem_ne st.positions index _ _ j hji]
          exact hj
    · have hidx : index < st.positions.length := (List.getElem?_eq_some.mp hcur).1
      have hidxv : index < st.visited.length := by rw [hlen]; exact hidx
      have hfuel1 : countFalse (st.visited.set index true) < fuel := by
        have hdec := count_false_set_true st.visited index hidxv hg
        omega
      have hlen1 : (markVisited st index).visited.length =
          (markVisited st index).positions.length := by
        show (st.visited.set index true).length = st.positions.length
        rw [List.length_set]
        exact hlen
      have hplt : curr.parentIndex.toNat < st.positions.length := by
        push_neg at hpar
        omega
      rw [heq]
      by_cases hji : index = j
      · subst hji
        have hcr : curr = r0 := Option.some.inj (hcur.symm.trans hj)
        subst hcr
        have hmarkvis : (markVisited st index).visited.getD index false = true :=
          getD_set_self st.visited index hidxv
        have hc2 : (recursiveCalcPosF fuel (markVisited st index)
            curr.parentIndex.toNat).positions[index]? = some curr := by
          rw [rcpF_frame fuel (markVisited st index) curr.parentIndex.toNat index hmarkvis]
          exact hcur
        have hplt2 : curr.parentIndex.toNat < (recursiveCalcPosF fuel
            (markVisited st index) curr.parentIndex.toNat).positions.length := by
          rw [rcpF_positions_length]
          exact hplt
        obtain ⟨par, hpar2⟩ : ∃ par, (recursiveCalcPosF fuel (markVisited st index)
            curr.parentIndex.toNat).positions[curr.parentIndex.toNat]? = some par :=
          ⟨_, List.getElem?_eq_getElem hplt2⟩
        rcases applyParent_cases (recursiveCalcPosF fuel (markVisited st index)
            curr.parentIndex.toNat) index curr.parentIndex.toNat with
          ⟨c2, par', h1, h2, heq2⟩ | ⟨hbad, _⟩
        · cases (Option.some.inj (hc2.symm.trans h1) : curr = c2)
          rw [heq2]
          right
          constructor
          · show (recursiveCalcPosF fuel (markVisited st index)
                curr.parentIndex.toNat).visited.getD index false = true
            exact rcpF_visited_mono fuel (markVisited st index)
              curr.parentIndex.toNat index hmarkvis
          · exact ⟨_, setReal_getElem_self _ index _ _ curr hc2, rfl, rfl⟩
        · rcases hbad with hbad | hbad
          · rw [hc2] at hbad; cases hbad
          · rw [hpar2] at hbad; cases hbad
      · have hvisj1 : (markVisited st index).visited.getD j false = false := by
          show (st.visited.set index true).getD j false = false
          rw [getD_set_ne st.visited index j hji]
          exact hvisj
        rcases ih (markVisited st index) curr.parentIndex.toNat j r0 hlen1 hfuel1
            hvisj1 hj with ⟨hv2, hp2⟩ | ⟨hv2, r, hr, hcx, hcy⟩
        · left
          constructor
          · rw [applyParent_visited]
            exact hv2
          · rw [applyParent_getElem_ne _ index curr.parentIndex.toNat j hji]
            exact hp2
        · right
          constructor
          · rw [applyParent_visited]
            exact hv2
          · refine ⟨r, ?_, hcx, hcy⟩
            rw [applyParent_getElem_ne _ index curr.parentIndex.toNat j hji]
            exact hr

theorem cnt_fold : ∀ (L : List Nat) (st : ResolveState) (j : Nat)
    (r0 : PositionRecord),
    st.visited.length = st.positions.length →
    ((st.visited.getD j false = false ∧ st.positions[j]? = some r0) ∨
     (st.visited.getD j false = true ∧ ∃ r, st.positions[j]? = some r ∧
        r.cntX = r0.cntX + 1 ∧ r.cntY = r0.cntY + 1)) →
    (((L.foldl recursiveCalcPos st).visited.getD j false = false ∧
       (L.foldl recursiveCalcPos st).positions[j]? = some r0) ∨
     ((L.foldl recursiveCalcPos st).visited.getD j false = true ∧
       ∃ r, (L.foldl recursiveCalcPos st).positions[j]? = some r ∧
         r.cntX = r0.cntX + 1 ∧ r.cntY = r0.cntY + 1)) := by
  intro L
  induction L with
  | nil => intro st j r0 _ h; exact h
  | cons a L ih =>
    intro st j r0 hlen h
    rw [List.foldl_cons]
    have hlen1 : (recursiveCalcPos st a).visited.length =
        (recursiveCalcPos st a).positions.length := by
      rw [rcp_visited_length, rcp_positions_length]
      exact hlen
    rcases h with ⟨hv, hp⟩ | ⟨hv, r, hr, hcx, hcy⟩
    · exact ih _ j r0 hlen1
        (cnt_step (countFalse st.visited + 1) st a j r0 hlen
          (Nat.lt_succ_self _) hv hp)
    · apply ih _ j r0 hlen1
      right
      refine ⟨rcp_visited_mono st a j hv, r, ?_, hcx, hcy⟩
      rw [rcp_frame st a j hv]
      exact hr

/-- After a full pass, every record keeps its static fields unchanged and has
each derived field written exactly once more than before the pass. -/
theorem cnt_main (ps : List PositionRecord) (j : Nat) (r0 : PositionRecord)
    (hj : ps[j]? = some r0) :
    ∃ r, (calculateBattlePositions ps)[j]? = some r ∧
      r.parentIndex = r0.parentIndex ∧ r.x = r0.x ∧ r.y = r0.y ∧
      r.cntX = r0.cntX + 1 ∧ r.cntY = r0.cntY + 1 := by
  have hjlt : j < ps.length := (List.getElem?_eq_some.mp hj).1
  have hlen0 : (List.replicate ps.length false).length = ps.length :=
    List.length_replicate ps.length false
  have hinit : ((List.replicate ps.length false).getD j false = false ∧
      (⟨ps, List.replicate ps.length false⟩ : ResolveState).positions[j]? = some r0) ∨
      ((List.replicate ps.length false).getD j false = true ∧
        ∃ r, (⟨ps, List.replicate ps.length false⟩ : ResolveState).positions[j]? = some r ∧
          r.cntX = r0.cntX + 1 ∧ r.cntY = r0.cntY + 1) :=
    Or.inl ⟨getD_replicate_false ps.length j, hj⟩
  rcases cnt_fold (List.range ps.length) ⟨ps, List.replicate ps.length false⟩ j r0
      hlen0 hinit with ⟨hv, _⟩ | ⟨_, r, hr, hcx, hcy⟩
  · exfalso
    have hvis := fold_visits (List.range ps.length)
      ⟨ps, List.replicate ps.length false⟩ j (List.mem_range.mpr hjlt)
      (by rw [hlen0]; exact hjlt)
    rw [hvis] at hv
    cases hv
  · have hstat : strip r = strip r0 := by
      have h1 := fold_stripL (List.range ps.length) ⟨ps, List.replicate ps.length false⟩
      have h2 : (stripL ((List.range ps.length).foldl recursiveCalcPos
          ⟨ps, List.replicate ps.length false⟩).positions)[j]? = (stripL ps)[j]? := by
        rw [h1]
      rw [stripL_getElem, stripL_getElem, hr, hj] at h2
      exact Option.some.inj h2
    refine ⟨r, hr, ?_, ?_, ?_, hcx, hcy⟩
    · exact congrArg StaticRec.parentIndex hstat
    · exact congrArg StaticRec.x hstat
    · exact congrArg StaticRec.y hstat

/-! ### Records with an invalid parent anchor at their own offsets -/

theorem inv3_step (s : List StaticRec) (j : Nat) (sr0 : StaticRec)
    (hsj : s[j]? = some sr0) (hpj : parentOf s j = none) :
    ∀ (fuel : Nat) (st : ResolveState) (index : Nat),
    stripL st.positions = s →
    st.visited.length = st.positions.length →
    countFalse st.visited < fuel →
    (st.visited.getD j false = true → ∃ r, st.positions[j]? = some r ∧
      r.realX = some (JSNum.num sr0.x) ∧ r.realY = some (JSNum.num sr0.y)) →
    ((recursiveCalcPosF fuel st index).visited.getD j false = true →
      ∃ r, (recursiveCalcPosF fuel st index).positions[j]? = some r ∧
        r.realX = some (JSNum.num sr0.x) ∧ r.realY = some (JSNum.num sr0.y)) := by
  intro fuel
  induction fuel with
  | zero =>
    intro st index _ _ hfuel _
    omega
  | succ fuel ih =>
    intro st index hstrip hlen hfuel hP
    rcases rcpF_succ_cases fuel st index with ⟨_, heq⟩ | ⟨_, hcur, heq⟩ |
      ⟨curr, hg, hcur, hpar, heq⟩ | ⟨curr, hg, hcur, hpar, heq⟩
    · rw [heq]
      exact hP
    · rw [heq]
      have hji : index ≠ j := by
        intro hc
        subst hc
        rw [← hstrip, stripL_getElem, hcur] at hsj
        cases hsj
      intro hvisj
      have hv : st.visited.getD j false = true :=
        getD_set_rev st.visited index j hvisj hji
      exact hP hv
    · rw [heq]
      intro hvisj
      by_cases hji : index = j
      · subst hji
        have hsr : s[index]? = some (strip curr) := by
          rw [← hstrip, stripL_getElem, hcur]
          rfl
        have hsc : strip curr = sr0 := Option.some.inj (hsr.symm.trans hsj)
        refine ⟨_, setReal_getElem_self st.positions index _ _ curr hcur, ?_, ?_⟩
        · rw [show curr.x = sr0.x from congrArg StaticRec.x hsc]
        · rw [show curr.y = sr0.y from congrArg StaticRec.y hsc]
      · have hv : st.visited.getD j false = true :=
          getD_set_rev st.visited index j hvisj hji
        rcases hP hv with ⟨r, hr, hrx, hry⟩
        refine ⟨r, ?_, hrx, hry⟩
        show (setReal _ _ _ _)[j]? = some r
        rw [setReal_getElem_ne st.positions index _ _ j hji]
        exact hr
    · have hidx : index < st.positions.length := (List.getElem?_eq_some.mp hcur).1
      have hidxv : index < st.visited.length := by rw [hlen]; exact hidx
      have hfuel1 : countFalse (st.visited.set index true) < fuel := by
        have hdec := count_false_set_true st.visited index hidxv hg
        omega
      have hji : index ≠ j := by
        intro hc
        subst hc
        have hsr : s[index]? = some (strip curr) := by
          rw [← hstrip, stripL_getElem, hcur]
          rfl
        have hsc : strip curr = sr0 := Option.some.inj (hsr.symm.trans hsj)
        unfold parentOf at hpj
        rw [hsr] at hpj
        simp only at hpj
        rw [if_neg] at hpj
        · cases hpj
        · show ¬((strip curr).parentIndex < 0 ∨ (s.length : Int) ≤ (strip curr).parentIndex)
          have hlenS : s.length = st.positions.length := by
            rw [← hstrip, stripL_length]
          rw [hlenS]
          exact hpar
      rw [heq]
      intro hvisj
      rw [applyParent_visited] at hvisj
      have hres := ih (markVisited st index) curr.parentIndex.toNat hstrip
        (by show (st.visited.set index true).length = st.positions.length
            rw [List.length_set]; exact hlen)
        hfuel1
        (by intro hv
            have hv2 : st.visited.getD j false = true :=
              getD_set_rev st.visited index j hv hji
            exact hP hv2)
        hvisj
      rcases hres with ⟨r, hr, hrx, hry⟩
      refine ⟨r, ?_, hrx, hry⟩
      rw [applyParent_getElem_ne _ index curr.parentIndex.toNat j hji]
      exact hr

theorem inv3_fold (s : List StaticRec) (j : Nat) (sr0 : StaticRec)
    (hsj : s[j]? = some sr0) (hpj : parentOf s j = none) :
    ∀ (L : List Nat) (st : ResolveState),
    stripL st.positions = s →
    st.visited.length = st.positions.length →
    (st.visited.getD j false = true → ∃ r, st.positions[j]? = some r ∧
      r.realX = some (JSNum.num sr0.x) ∧ r.realY = some (JSNum.num sr0.y)) →
    ((L.foldl recursiveCalcPos st).visited.getD j false = true →
      ∃ r, (L.foldl recursiveCalcPos st).positions[j]? = some r ∧
        r.realX = some (JSNum.num sr0.x) ∧ r.realY = some (JSNum.num sr0.y)) := by
  intro L
  induction L with
  | nil => intro st _ _ hP; exact hP
  | cons a L ih =>
    intro st hstrip hlen hP
    rw [List.foldl_cons]
    apply ih
    · rw [rcp_stripL]
      exact hstrip
    · rw [rcp_visited_length, rcp_positions_length]
      exact hlen
    · exact inv3_step s j sr0 hsj hpj (countFalse st.visited + 1) st a hstrip hlen
        (Nat.lt_succ_self _) hP

/-! ### Helper facts about the whole pass -/

theorem calc_length (ps : List PositionRecord) :
    (calculateBattlePositions ps).length = ps.length := by
  unfold calculateBattlePositions
  rw [fold_positions_length]

theorem calc_stripL (ps : List PositionRecord) :
    stripL (calculateBattlePositions ps) = stripL ps := by
  unfold calculateBattlePositions
  rw [fold_stripL]

theorem fresh_ok (ps : List PositionRecord)
    (h : ∀ r ∈ ps, r.realX = none ∧ r.realY = none) :
    ∀ j r, ps[j]? = some r → okRec (stripL ps) j r := by
  intro j r hr
  rcases h r (List.getElem?_mem hr) with ⟨hx, hy⟩
  exact ⟨Or.inl hx, Or.inl hy⟩

theorem calc_lookup (ps : List PositionRecord) (j : Nat) (h : j < ps.length) :
    ∃ r, (calculateBattlePositions ps)[j]? = some r := by
  refine ⟨_, List.getElem?_eq_getElem ?_⟩
  rw [calc_length]
  exact h

theorem calc_strip_at (ps : List PositionRecord) (j : Nat)
    (r r0 : PositionRecord) (hr : (calculateBattlePositions ps)[j]? = some r)
    (h0 : ps[j]? = some r0) : strip r = strip r0 := by
  have h1 : (stripL (calculateBattlePositions ps))[j]? = (stripL ps)[j]? := by
    rw [calc_stripL]
  rw [stripL_getElem, stripL_getElem, hr, h0] at h1
  exact Option.some.inj h1

/-- The running example from the plugin's default configuration: four
records chained by parent links. -/
def demo4 : List PositionRecord :=
  [⟨-1, 600, 280, none, none, 0, 0⟩, ⟨0, 32, 48, none, none, 0, 0⟩,
   ⟨1, 32, 48, none, none, 0, 0⟩, ⟨2, 32, 48, none, none, 0, 0⟩]

/-- The derived view of a record list that the spec's idempotence statement
compares: configuration fields plus resolved coordinates (the ghost write
counters are excluded, as they are not part of the program state). -/
def viewRes (l : List PositionRecord) : List (Int × Int × Int × Option JSNum × Option JSNum) :=
  l.map (fun r => (r.parentIndex, r.x, r.y, r.realX, r.realY))

/-! ### The claims -/

/-- C1: the claim states that after a full pass every record in a cycle has
`realX`/`realY` and that the cycle member first reached in ascending-index
order resolves as if parentless (`realX = x`, `realY = y`).  The code
instead computes `x + undefined = NaN` for that member: on the self-loop
`[{parentIndex: 0, x: 10, y: 10}]` the pass writes `NaN`, not `10`, and on
the mutual pair `[{parentIndex: 1, x: 1, y: 2}, {parentIndex: 0, x: 3, y: 4}]`
record 0 gets `NaN`, not `1` — contradicting the code's own comment that the
lowest-index member "is calculated relative to (0,0)". -/
theorem claim_c1_cycle_nan :
    (calculateBattlePositions [⟨0, 10, 10, none, none, 0, 0⟩]).map
      (fun r => (r.realX, r.realY)) = [(some JSNum.nan, some JSNum.nan)] ∧
    (calculateBattlePositions [⟨1, 1, 2, none, none, 0, 0⟩,
        ⟨0, 3, 4, none, none, 0, 0⟩]).map (fun r => (r.realX, r.realY)) =
      [(some JSNum.nan, some JSNum.nan), (some JSNum.nan, some JSNum.nan)] ∧
    JSNum.nan ≠ JSNum.num 10 ∧ JSNum.nan ≠ JSNum.num 1 := by
  refine ⟨?_, ?_, ?_, ?_⟩ <;> decide

/-- C3: a record whose `parentIndex` is negative or at least the number of
records is treated as parentless by a full resolution pass: its `realX` is
its own `x` and its `realY` its own `y`, for any initial derived-field
contents. -/
theorem claim_c3_invalid_parent (ps : List PositionRecord) (j : Nat)
    (r0 : PositionRecord) (hj : ps[j]? = some r0)
    (hinv : r0.parentIndex < 0 ∨ (ps.length : Int) ≤ r0.parentIndex) :
    ∃ r, (calculateBattlePositions ps)[j]? = some r ∧
      r.realX = some (JSNum.num r0.x) ∧ r.realY = some (JSNum.num r0.y) := by
  have hjlt : j < ps.length := (List.getElem?_eq_some.mp hj).1
  have hsj : (stripL ps)[j]? = some (strip r0) := by
    rw [stripL_getElem, hj]
    rfl
  have hpj : parentOf (stripL ps) j = none := by
    unfold parentOf
    simp only [hsj]
    rw [if_pos]
    show (strip r0).parentIndex < 0 ∨ ((stripL ps).length : Int) ≤ (strip r0).parentIndex
    rw [stripL_length]
    exact hinv
  have hlen0 : (List.replicate ps.length false).length = ps.length :=
    List.length_replicate ps.length false
  have hres := inv3_fold (stripL ps) j (strip r0) hsj hpj (List.range ps.length)
    ⟨ps, List.replicate ps.length false⟩ rfl hlen0
    (by intro hv
        rw [getD_replicate_false] at hv
        cases hv)
    (fold_visits (List.range ps.length) ⟨ps, List.replicate ps.length false⟩ j
      (List.mem_range.mpr hjlt) (by rw [hlen0]; exact hjlt))
  exact hres

/-- C3 witness: one parentless record `{parentIndex: -1, x: 5, y: 6}`
resolves to its own offsets. -/
theorem claim_c3_witness :
    ∃ r, (calculateBattlePositions [⟨-1, 5, 6, none, none, 0, 0⟩])[0]? = some r ∧
      r.realX = some (JSNum.num 5) ∧ r.realY = some (JSNum.num 6) :=
  claim_c3_invalid_parent [⟨-1, 5, 6, none, none, 0, 0⟩] 0
    ⟨-1, 5, 6, none, none, 0, 0⟩ rfl (by decide)

/-- C4: a full resolution pass is a total function — it is defined for every
input list (the embedding's recursion is fuelled by the number of unvisited
indices, mirroring the source's visited guard), returns a list of the same
length, and returns the empty list on the empty input. -/
theorem claim_c4_total (ps : List PositionRecord) :
    (calculateBattlePositions ps).length = ps.length ∧
    (ps.length = 0 → calculateBattlePositions ps = []) := by
  refine ⟨calc_length ps, ?_⟩
  intro h
  have h2 : (calculateBattlePositions ps).length = 0 := by
    rw [calc_length]
    exact h
  exact List.eq_nil_of_length_eq_zero h2

/-- C4 witness: the empty input, including the degenerate length equation. -/
theorem claim_c4_witness :
    (calculateBattlePositions []).length = ([] : List PositionRecord).length ∧
    calculateBattlePositions [] = [] :=
  ⟨(claim_c4_total []).1, (claim_c4_total []).2 rfl⟩

/-- C7: the default four-record configuration resolves to the vanilla
positions (600,280), (632,328), (664,376), (696,424), and the empty list
resolves to the empty list with no error. -/
theorem claim_c7_concrete :
    (calculateBattlePositions demo4).map (fun r => (r.realX, r.realY)) =
      [(some (JSNum.num 600), some (JSNum.num 280)),
       (some (JSNum.num 632), some (JSNum.num 328)),
       (some (JSNum.num 664), some (JSNum.num 376)),
       (some (JSNum.num 696), some (JSNum.num 424))] ∧
    calculateBattlePositions [] = [] := by
  constructor <;> decide

/-- C8: a full pass writes only the derived fields — `parentIndex`, `x`, `y`
are unchanged — and writes each record's `realX` and `realY` exactly once
(the ghost write counters each increase by exactly one). -/
theorem claim_c8_frame (ps : List PositionRecord) (j : Nat) (r0 : PositionRecord)
    (hj : ps[j]? = some r0) :
    ∃ r, (calculateBattlePositions ps)[j]? = some r ∧
      r.parentIndex = r0.parentIndex ∧ r.x = r0.x ∧ r.y = r0.y ∧
      r.cntX = r0.cntX + 1 ∧ r.cntY = r0.cntY + 1 :=
  cnt_main ps j r0 hj

/-- C8 witness: even the self-loop record is written exactly once. -/
theorem claim_c8_witness :
    ∃ r, (calculateBattlePositions [⟨0, 10, 10, none, none, 0, 0⟩])[0]? = some r ∧
      r.parentIndex = (0 : Int) ∧ r.x = (10 : Int) ∧ r.y = (10 : Int) ∧
      r.cntX = 0 + 1 ∧ r.cntY = 0 + 1 :=
  claim_c8_frame [⟨0, 10, 10, none, none, 0, 0⟩] 0 ⟨0, 10, 10, none, none, 0, 0⟩ rfl

/-- C9: the anchor lookup uses a record's `realX`/`realY` whenever a record
exists at the index, and signals "use the host default" — it never calls
`setHome` at all, in particular not with a zero coordinate — when no record
exists. -/
theorem claim_c9_anchor (ps : List PositionRecord) (index : Nat) :
    (ps[index]? = none → setActorHomeChoice ps index = none) ∧
    (ps[index]? = none → ∀ q, setActorHomeChoice ps index ≠ some q) ∧
    (∀ r, ps[index]? = some r →
      setActorHomeChoice ps index = some (r.realX, r.realY)) := by
  refine ⟨?_, ?_, ?_⟩
  · intro h
    unfold setActorHomeChoice
    rw [h]
  · intro h q
    unfold setActorHomeChoice
    rw [h]
    intro hc
    cases hc
  · intro r h
    unfold setActorHomeChoice
    rw [h]

/-- C9 witness: an unconfigured index defers to the default; a configured
one uses the record's fields. -/
theorem claim_c9_witness :
    setActorHomeChoice [] 0 = none ∧
    setActorHomeChoice [⟨-1, 600, 280, some (JSNum.num 600), some (JSNum.num 280), 1, 1⟩] 0 =
      some (some (JSNum.num 600), some (JSNum.num 280)) :=
  ⟨(claim_c9_anchor [] 0).1 rfl,
   (claim_c9_anchor [⟨-1, 600, 280, some (JSNum.num 600), some (JSNum.num 280), 1, 1⟩] 0).2.2
     _ rfl⟩

/-- C10: the anchor lookup decides solely on record existence, not on
whether a resolution pass has run: a configured index whose record still has
both derived fields unset (JavaScript `undefined`) is passed to `setHome`
with those undefined values rather than deferring to the host default. -/
theorem claim_c10_pre_resolution (ps : List PositionRecord) (index : Nat)
    (r : PositionRecord) (h : ps[index]? = some r)
    (hx : r.realX = none) (hy : r.realY = none) :
    setActorHomeChoice ps index = some (none, none) := by
  unfold setActorHomeChoice
  simp only [h]
  rw [hx, hy]

/-- C10 witness: the fresh default first record before any pass. -/
theorem claim_c10_witness :
    setActorHomeChoice demo4 0 = some (none, none) :=
  claim_c10_pre_resolution demo4 0 ⟨-1, 600, 280, none, none, 0, 0⟩ rfl rfl rfl

/-- C2: starting from fresh records, every record whose valid-parent chain
reaches a parentless root (witnessed by `absXY` terminating at any fuel)
resolves to the recursive chain sum: `realX` is its own `x` plus its
parent's resolved `realX` all the way down to the root, and likewise for
`realY`. -/
theorem claim_c2_chain (ps : List PositionRecord) (j fuel : Nat) (ax ay : Int)
    (hfresh : ∀ r ∈ ps, r.realX = none ∧ r.realY = none)
    (habs : absXY (stripL ps) fuel j = some (ax, ay)) :
    ∃ r, (calculateBattlePositions ps)[j]? = some r ∧
      r.realX = some (JSNum.num ax) ∧ r.realY = some (JSNum.num ay) ∧
      (∀ p rp, parentOf (stripL ps) j = some p →
        (calculateBattlePositions ps)[p]? = some rp →
        r.realX = some (jsAddField r.x rp.realX) ∧
        r.realY = some (jsAddField r.y rp.realY)) := by
  have hOK := fresh_ok ps hfresh
  have hbnd := absXY_bnd (stripL ps) fuel j (ax, ay) habs
  have hjlt : j < ps.length := by
    have h1 := absXY_lt (stripL ps) fuel j (ax, ay) habs
    rw [stripL_length] at h1
    exact h1
  obtain ⟨r, hr⟩ := calc_lookup ps j hjlt
  have hvals := out_main ps hOK j r hr
  rcases outV_num (stripL ps) j (ax, ay) hbnd with ⟨hvx, hvy⟩
  refine ⟨r, hr, ?_, ?_, ?_⟩
  · rw [hvals.1, hvx]
  · rw [hvals.2, hvy]
  · intro p rp hpof hrp
    have hvalsp := out_main ps hOK p rp hrp
    obtain ⟨sr0, hsr0⟩ : ∃ sr0, ps[j]? = some sr0 :=
      ⟨_, List.getElem?_eq_getElem hjlt⟩
    have hsj : (stripL ps)[j]? = some (strip sr0) := by
      rw [stripL_getElem, hsr0]
      rfl
    rcases outV_parent (stripL ps) j p (strip sr0) hpof hsj with ⟨hpx, hpy⟩
    have hrx : r.x = (strip sr0).x :=
      congrArg StaticRec.x (calc_strip_at ps j r sr0 hr hsr0)
    have hry : r.y = (strip sr0).y :=
      congrArg StaticRec.y (calc_strip_at ps j r sr0 hr hsr0)
    constructor
    · rw [hvals.1, hpx, hvalsp.1, hrx]
    · rw [hvals.2, hpy, hvalsp.2, hry]

/-- C2 witness: the last record of the default chain resolves to
(696, 424), and its `realX` is its own `x` plus its parent's `realX`. -/
theorem claim_c2_witness :
    ∃ r, (calculateBattlePositions demo4)[3]? = some r ∧
      r.realX = some (JSNum.num 696) ∧ r.realY = some (JSNum.num 424) ∧
      (∀ p rp, parentOf (stripL demo4) 3 = some p →
        (calculateBattlePositions demo4)[p]? = some rp →
        r.realX = some (jsAddField r.x rp.realX) ∧
        r.realY = some (jsAddField r.y rp.realY)) :=
  claim_c2_chain demo4 3 4 696 424 (by decide) (by decide)

/-- C5: a full resolution pass is idempotent and deterministic on the
program-visible state: running it twice from fresh records yields the same
`parentIndex`, `x`, `y`, `realX`, `realY` for every record as running it
once (visitation tracking is allocated afresh inside each pass, so no state
leaks between passes). -/
theorem claim_c5_idempotent (ps : List PositionRecord)
    (hfresh : ∀ r ∈ ps, r.realX = none ∧ r.realY = none) :
    viewRes (calculateBattlePositions (calculateBattlePositions ps)) =
      viewRes (calculateBattlePositions ps) := by
  have hOK1 := fresh_ok ps hfresh
  have out1 := out_main ps hOK1
  have hstrip1 : stripL (calculateBattlePositions ps) = stripL ps := calc_stripL ps
  have hOK2 : ∀ j r, (calculateBattlePositions ps)[j]? = some r →
      okRec (stripL (calculateBattlePositions ps)) j r := by
    intro j r hr
    rw [hstrip1]
    rcases out1 j r hr with ⟨hx, hy⟩
    exact ⟨Or.inr hx, Or.inr hy⟩
  have out2 := out_main (calculateBattlePositions ps) hOK2
  apply List.ext_getElem?
  intro n
  unfold viewRes
  rw [List.getElem?_map, List.getElem?_map]
  by_cases hn : n < ps.length
  · obtain ⟨r1, hr1⟩ := calc_lookup ps n hn
    obtain ⟨r2, hr2⟩ := calc_lookup (calculateBattlePositions ps) n
      (by rw [calc_length]; exact hn)
    rw [hr1, hr2]
    simp only [Option.map_some']
    have hstat : strip r2 = strip r1 :=
      calc_strip_at (calculateBattlePositions ps) n r2 r1 hr2 hr1
    have hx2 := (out2 n r2 hr2).1
    have hy2 := (out2 n r2 hr2).2
    rw [hstrip1] at hx2 hy2
    have e1 : r2.parentIndex = r1.parentIndex := congrArg StaticRec.parentIndex hstat
    have e2 : r2.x = r1.x := congrArg StaticRec.x hstat
    have e3 : r2.y = r1.y := congrArg StaticRec.y hstat
    have e4 : r2.realX = r1.realX := by
      rw [hx2, (out1 n r1 hr1).1]
    have e5 : r2.realY = r1.realY := by
      rw [hy2, (out1 n r1 hr1).2]
    rw [e1, e2, e3, e4, e5]
  · have hle : ps.length ≤ n := Nat.le_of_not_lt hn
    rw [List.getElem?_eq_none (by rw [calc_length, calc_length]; exact hle),
      List.getElem?_eq_none (by rw [calc_length]; exact hle)]

/-- C5 witness: the default configuration, resolved twice, keeps its
resolved view. -/
theorem claim_c5_witness :
    viewRes (calculateBattlePositions (calculateBattlePositions demo4)) =
      viewRes (calculateBattlePositions demo4) :=
  claim_c5_idempotent demo4 (by decide)

/-- C6: when two records share the same valid parent, the parent is resolved
exactly once during the pass (its ghost write counters end at one), and both
children's resolved coordinates are their own offsets plus that one resolved
parent position. -/
theorem claim_c6_shared_parent (ps : List PositionRecord) (j k p : Nat)
    (hfresh : ∀ r ∈ ps, r.realX = none ∧ r.realY = none ∧ r.cntX = 0 ∧ r.cntY = 0)
    (hpj : parentOf (stripL ps) j = some p)
    (hpk : parentOf (stripL ps) k = some p) :
    ∃ rp rj rk, (calculateBattlePositions ps)[p]? = some rp ∧
      (calculateBattlePositions ps)[j]? = some rj ∧
      (calculateBattlePositions ps)[k]? = some rk ∧
      rp.cntX = 1 ∧ rp.cntY = 1 ∧
      rj.realX = some (jsAddField rj.x rp.realX) ∧
      rj.realY = some (jsAddField rj.y rp.realY) ∧
      rk.realX = some (jsAddField rk.x rp.realX) ∧
      rk.realY = some (jsAddField rk.y rp.realY) := by
  have hOK := fresh_ok ps (by
    intro r hr
    rcases hfresh r hr with ⟨h1, h2, _, _⟩
    exact ⟨h1, h2⟩)
  have hplt : p < ps.length := by
    have h1 := parentOf_lt (stripL ps) j p hpj
    rw [stripL_length] at h1
    exact h1
  have hjlt : j < ps.length := by
    rcases parentOf_spec (stripL ps) j p hpj with ⟨sr, hsr, _, _⟩
    have := (List.getElem?_eq_some.mp hsr).1
    rw [stripL_length] at this
    exact this
  have hklt : k < ps.length := by
    rcases parentOf_spec (stripL ps) k p hpk with ⟨sr, hsr, _, _⟩
    have := (List.getElem?_eq_some.mp hsr).1
    rw [stripL_length] at this
    exact this
  obtain ⟨rp0, hrp0⟩ : ∃ rp0, ps[p]? = some rp0 := ⟨_, List.getElem?_eq_getElem hplt⟩
  rcases cnt_main ps p rp0 hrp0 with ⟨rp, hrp, _, _, _, hcx, hcy⟩
  rcases hfresh rp0 (List.getElem?_mem hrp0) with ⟨_, _, hc0x, hc0y⟩
  obtain ⟨rj, hrj⟩ := calc_lookup ps j hjlt
  obtain ⟨rk, hrk⟩ := calc_lookup ps k hklt
  have hvp := out_main ps hOK p rp hrp
  have hvj := out_main ps hOK j rj hrj
  have hvk := out_main ps hOK k rk hrk
  obtain ⟨rj0, hrj0⟩ : ∃ rj0, ps[j]? = some rj0 := ⟨_, List.getElem?_eq_getElem hjlt⟩
  obtain ⟨rk0, hrk0⟩ : ∃ rk0, ps[k]? = some rk0 := ⟨_, List.getElem?_eq_getElem hklt⟩
  have hsj : (stripL ps)[j]? = some (strip rj0) := by rw [stripL_getElem, hrj0]; rfl
  have hsk : (stripL ps)[k]? = some (strip rk0) := by rw [stripL_getElem, hrk0]; rfl
  rcases outV_parent (stripL ps) j p (strip rj0) hpj hsj with ⟨hpxj, hpyj⟩
  rcases outV_parent (stripL ps) k p (strip rk0) hpk hsk with ⟨hpxk, hpyk⟩
  have hrjx : rj.x = (strip rj0).x :=
    congrArg StaticRec.x (calc_strip_at ps j rj rj0 hrj hrj0)
  have hrjy : rj.y = (strip rj0).y :=
    congrArg StaticRec.y (calc_strip_at ps j rj rj0 hrj hrj0)
  have hrkx : rk.x = (strip rk0).x :=
    congrArg StaticRec.x (calc_strip_at ps k rk rk0 hrk hrk0)
  have hrky : rk.y = (strip rk0).y :=
    congrArg StaticRec.y (calc_strip_at ps k rk rk0 hrk hrk0)
  refine ⟨rp, rj, rk, hrp, hrj, hrk, ?_, ?_, ?_, ?_, ?_, ?_⟩
  · rw [hcx, hc0x]
  · rw [hcy, hc0y]
  · rw [hvj.1, hpxj, hvp.1, hrjx]
  · rw [hvj.2, hpyj, hvp.2, hrjy]
  · rw [hvk.1, hpxk, hvp.1, hrkx]
  · rw [hvk.2, hpyk, hvp.2, hrky]

/-- C6 witness: records 1 and 2 both anchored on record 0, which is written
once and contributes the same resolved position to both. -/
theorem claim_c6_witness :
    ∃ rp rj rk,
      (calculateBattlePositions [⟨-1, 600, 280, none, none, 0, 0⟩,
        ⟨0, 32, 48, none, none, 0, 0⟩, ⟨0, 5, 6, none, none, 0, 0⟩])[0]? = some rp ∧
      (calculateBattlePositions [⟨-1, 600, 280, none, none, 0, 0⟩,
        ⟨0, 32, 48, none, none, 0, 0⟩, ⟨0, 5, 6, none, none, 0, 0⟩])[1]? = some rj ∧
      (calculateBattlePositions [⟨-1, 600, 280, none, none, 0, 0⟩,
        ⟨0, 32, 48, none, none, 0, 0⟩, ⟨0, 5, 6, none, none, 0, 0⟩])[2]? = some rk ∧
      rp.cntX = 1 ∧ rp.cntY = 1 ∧
      rj.realX = some (jsAddField rj.x rp.realX) ∧
      rj.realY = some (jsAddField rj.y rp.realY) ∧
      rk.realX = some (jsAddField rk.x rp.realX) ∧
      rk.realY = some (jsAddField rk.y rp.realY) :=
  claim_c6_shared_parent [⟨-1, 600, 280, none, none, 0, 0⟩,
    ⟨0, 32, 48, none, none, 0, 0⟩, ⟨0, 5, 6, none, none, 0, 0⟩] 1 2 0
    (by decide) (by decide) (by decide)
